import Mathlib

/-!
Verification of the cipher core of the AlternateRealityGameToolkit repository:
the Bifid and ADFGVX fractionation/transposition pipelines and the Chaocipher
dynamic permutation engine, shallowly embedded from the Python sources.

Python strings are embedded as `List Char`; Python dict/`.index` lookups that
can raise (`KeyError`, `ValueError`, `IndexError`, unpacking `None`) are
embedded as `Option`-returning functions, with `none` marking the abort.
-/

namespace ARGT

/-! ## Bifid cipher (src/Ciphers/Bifid/BifidCipher.py, BifidDecipher.py) -/

/-- The fixed 25-letter Bifid alphabet (`alphabet = "abcdefghiklmnopqrstuvwxyz"`). -/
def bifidAlphabet : List Char := "abcdefghiklmnopqrstuvwxyz".toList

/-- Per-character effect of `msg.lower().replace("j", "i")`. -/
def normChar (c : Char) : Char :=
  let c' := c.toLower
  if c' = 'j' then 'i' else c'

/-- `msg.replace(" ", "").lower().replace("j", "i")` on the character list. -/
def bifidNormalize (msg : List Char) : List Char :=
  (msg.filter (fun c => c ≠ ' ')).map normChar

/-- Index of the first occurrence of `c` in a list, as Python `list.index` /
the enumeration-built dict (which agree on duplicate-free lists). -/
def indexOfChar (c : Char) : List Char → Option Nat
  | [] => none
  | x :: xs => if x = c then some 0 else (indexOfChar c xs).map (· + 1)

/-- `char_to_coords`: the dict built from `enumerate(square)` with
`row = idx // 5`, `col = idx % 5`; `none` when `char not in char_to_coords`. -/
def charToCoords (square : List Char) (c : Char) : Option (Nat × Nat) :=
  (indexOfChar c square).map (fun idx => (idx / 5, idx % 5))

/-- `coords_to_char`: the inverse dict; its keys are exactly the pairs
`(idx // 5, idx % 5)` for `idx < len(square)`, so lookup of `(row, col)`
yields `square[row*5 + col]` when `row < 5` and `col < 5`, else `KeyError`. -/
def coordsToChar (square : List Char) (row col : Nat) : Option Char :=
  if row < 5 ∧ col < 5 then square.get? (row * 5 + col) else none

/-- The encoder loop `for i in range(0, len(combined), 2)` reading
`combined[i], combined[i+1]`; a trailing unpaired element would be an
`IndexError` in Python, embedded as `none`. -/
def pairUp : List Nat → Option (List (Nat × Nat))
  | [] => some []
  | [_] => none
  | a :: b :: rest => (pairUp rest).map (fun ps => (a, b) :: ps)

/-- A string-building loop that aborts on the first failed lookup
(`KeyError`/`ValueError` in Python). -/
def mapOpt (f : α → Option β) : List α → Option (List β)
  | [] => some []
  | a :: as =>
    match f a with
    | none => none
    | some b => (mapOpt f as).map (fun bs => b :: bs)

/-- The coordinate list of the normalized message: characters that are in the
square (`if char in char_to_coords`) mapped to their `(row, col)` pair.  Both
scripts build exactly this before recombining. -/
def bifidCoords (square : List Char) (msg : List Char) : List (Nat × Nat) :=
  (bifidNormalize msg).filterMap (charToCoords square)

/-- `combined = rows + cols` of BifidCipher.py line 66. -/
def bifidCombined (square : List Char) (msg : List Char) : List Nat :=
  (bifidCoords square msg).map Prod.fst ++ (bifidCoords square msg).map Prod.snd

/-- BifidCipher.py lines 56-73: normalize the message, map the characters
that are in the square to coordinates, concatenate all rows followed by all
columns, then read the combined list two at a time back through the square. -/
def bifid_encrypt (square : List Char) (msg : List Char) : Option (List Char) :=
  (pairUp (bifidCombined square msg)).bind
    (mapOpt (fun rc => coordsToChar square rc.1 rc.2))

/-- The decoder's `combined` list (BifidDecipher.py lines 48-53): the flattened
coordinates of the normalized ciphertext characters found in the square. -/
def bifidDecCombined (square : List Char) (ct : List Char) : List Nat :=
  (bifidCoords square ct).flatMap (fun rc => [rc.1, rc.2])

/-- BifidDecipher.py lines 47-65: normalize the ciphertext, flatten the
coordinates of the characters that are in the square, split the combined list
at `mid = len // 2` into `rows`/`cols`, and map `(rows[i], cols[i])` for
`i < len(rows)` back through the square. -/
def bifid_decrypt (square : List Char) (ct : List Char) : Option (List Char) :=
  mapOpt (fun rc => coordsToChar square rc.1 rc.2)
    (List.zip
      ((bifidDecCombined square ct).take ((bifidDecCombined square ct).length / 2))
      ((bifidDecCombined square ct).drop ((bifidDecCombined square ct).length / 2)))

/-- The CSV validation `len(square) == 25 and set(square) == set(alphabet)`. -/
def validSquareb (square : List Char) : Bool :=
  square.length == 25 && square.all (· ∈ bifidAlphabet) && bifidAlphabet.all (· ∈ square)

/-- Number of grid-mapped characters of a message: those that survive
normalization and are present in the square. -/
def gridMappedCount (square : List Char) (msg : List Char) : Nat :=
  (bifidCoords square msg).length

/-! ### Lookup lemmas -/


lemma indexOfChar_eq_none (c : Char) (l : List Char) (h : c ∉ l) :
    indexOfChar c l = none := by
  induction l with
  | nil => rfl
  | cons x xs ih =>
    simp only [List.mem_cons, not_or] at h
    simp [indexOfChar, Ne.symm h.1, ih h.2]

lemma indexOfChar_mem (c : Char) (l : List Char) (h : c ∈ l) :
    ∃ i, indexOfChar c l = some i := by
  induction l with
  | nil => simp at h
  | cons x xs ih =>
    by_cases hx : x = c
    · exact ⟨0, by simp [indexOfChar, hx]⟩
    · have hm : c ∈ xs := by
        rcases List.mem_cons.mp h with h' | h'
        · exact absurd h'.symm hx
        · exact h'
      obtain ⟨i, hi⟩ := ih hm
      exact ⟨i + 1, by simp [indexOfChar, hx, hi]⟩

lemma indexOfChar_get (c : Char) (l : List Char) (i : Nat)
    (h : indexOfChar c l = some i) : i < l.length ∧ l[i]? = some c := by
  induction l generalizing i with
  | nil => simp [indexOfChar] at h
  | cons x xs ih =>
    by_cases hx : x = c
    · simp [indexOfChar, hx] at h
      subst h
      simp [hx]
    · simp [indexOfChar, hx] at h
      obtain ⟨j, hj, rfl⟩ := h
      obtain ⟨h1, h2⟩ := ih j hj
      exact ⟨by simpa using h1, by simpa using h2⟩

lemma indexOfChar_of_nodup (l : List Char) (i : Nat) (c : Char)
    (hn : l.Nodup) (hi : l[i]? = some c) : indexOfChar c l = some i := by
  induction l generalizing i with
  | nil => simp at hi
  | cons x xs ih =>
    rcases i with _ | j
    · simp at hi
      simp [indexOfChar, hi]
    · simp at hi
      have hx : x ≠ c := by
        intro hxc
        subst hxc
        exact (List.nodup_cons.mp hn).1 (List.getElem?_mem hi)
      simp [indexOfChar, hx, ih j (List.nodup_cons.mp hn).2 hi]



lemma pairUp_spec : ∀ (l : List Nat) (ps : List (Nat × Nat)),
    pairUp l = some ps →
    ps.flatMap (fun p => [p.1, p.2]) = l ∧ ∀ p ∈ ps, p.1 ∈ l ∧ p.2 ∈ l
  | [], ps, h => by
    simp [pairUp] at h
    subst h
    simp
  | [a], ps, h => by simp [pairUp] at h
  | a :: b :: rest, ps, h => by
    simp [pairUp] at h
    obtain ⟨qs, hqs, rfl⟩ := h
    obtain ⟨hflat, hmem⟩ := pairUp_spec rest qs hqs
    constructor
    · simp [hflat]
    · intro p hp
      rcases List.mem_cons.mp hp with rfl | hp'
      · simp
      · obtain ⟨h1, h2⟩ := hmem p hp'
        exact ⟨by simp [h1], by simp [h2]⟩

lemma pairUp_even : ∀ (l : List Nat), l.length % 2 = 0 → ∃ ps, pairUp l = some ps
  | [], _ => ⟨[], rfl⟩
  | [a], h => by simp at h
  | a :: b :: rest, h => by
    have hr : rest.length % 2 = 0 := by
      simp [List.length_cons] at h
      omega
    obtain ⟨ps, hps⟩ := pairUp_even rest hr
    exact ⟨(a, b) :: ps, by simp [pairUp, hps]⟩

lemma mapOpt_eq_some (f : α → Option β) (g : α → β) (l : List α)
    (h : ∀ x ∈ l, f x = some (g x)) : mapOpt f l = some (l.map g) := by
  induction l with
  | nil => rfl
  | cons a as ih =>
    have ha := h a (List.mem_cons_self a as)
    simp [mapOpt, ha, ih (fun x hx => h x (List.mem_cons_of_mem a hx))]

lemma validSquareb_perm (sq : List Char) (h : validSquareb sq = true) :
    sq.Perm bifidAlphabet := by
  simp only [validSquareb, Bool.and_eq_true, beq_iff_eq, List.all_eq_true,
    decide_eq_true_eq] at h
  obtain ⟨⟨hlen, hsub⟩, hsup⟩ := h
  have hnd : bifidAlphabet.Nodup := by decide
  have hsp : bifidAlphabet.Subperm sq :=
    List.subperm_of_subset hnd (fun c hc => hsup c hc)
  have hperm : bifidAlphabet.Perm sq := by
    apply hsp.perm_of_length_le
    have : bifidAlphabet.length = 25 := by decide
    omega
  exact hperm.symm



lemma filterMap_eq_map_of_some (f : α → Option β) (g : α → β) (l : List α)
    (h : ∀ x ∈ l, f x = some (g x)) : l.filterMap f = l.map g := by
  induction l with
  | nil => rfl
  | cons a as ih =>
    simp [List.filterMap_cons, h a (List.mem_cons_self a as),
          ih (fun x hx => h x (List.mem_cons_of_mem a hx))]

/-- The first-occurrence index as a total function (defaulting to 0). -/
def gIdx (sq : List Char) (c : Char) : Nat := (indexOfChar c sq).getD 0

lemma gIdx_spec (sq : List Char) (c : Char) (hc : c ∈ sq) :
    indexOfChar c sq = some (gIdx sq c) ∧ gIdx sq c < sq.length ∧
      sq[gIdx sq c]? = some c := by
  obtain ⟨i, hi⟩ := indexOfChar_mem c sq hc
  obtain ⟨h1, h2⟩ := indexOfChar_get c sq i hi
  refine ⟨?_, ?_, ?_⟩ <;> simp [gIdx, hi, h1, h2]

/-- The character a valid coordinate pair maps back to, as a total function. -/
def cellChar (sq : List Char) (p : Nat × Nat) : Char := sq.getD (p.1 * 5 + p.2) ' '




/-- Characters of the fixed alphabet are fixed points of normalization. -/
lemma alpha_norm_fix : ∀ c ∈ bifidAlphabet, normChar c = c ∧ c ≠ ' ' := by decide

lemma ofNat_norm_mem (n : Nat) (h1 : 97 ≤ n) (h2 : n ≤ 122) :
    (if Char.ofNat n = 'j' then 'i' else Char.ofNat n) ∈ bifidAlphabet := by
  interval_cases n <;> decide

/-- Normalizing any (upper- or lower-case ASCII) letter lands in the fixed
25-letter alphabet. -/
lemma normChar_mem_bifidAlphabet (c : Char) (h : c.isAlpha = true) :
    normChar c ∈ bifidAlphabet := by
  unfold normChar
  rcases Bool.or_eq_true _ _ |>.mp h with hu | hl
  · simp only [Char.isUpper] at hu
    have hb : 65 ≤ c.toNat ∧ c.toNat ≤ 90 := by simpa using hu
    have ht : c.toLower = Char.ofNat (c.toNat + 32) := by
      unfold Char.toLower
      rw [if_pos ⟨hb.1, hb.2⟩]
    rw [ht]
    exact ofNat_norm_mem (c.toNat + 32) (by omega) (by omega)
  · simp only [Char.isLower] at hl
    have hb : 97 ≤ c.toNat ∧ c.toNat ≤ 122 := by simpa using hl
    have ht : c.toLower = c := by
      unfold Char.toLower
      rw [if_neg (by omega)]
    rw [ht]
    have hc : c = Char.ofNat c.toNat := (Char.ofNat_toNat c).symm
    rw [hc]
    exact ofNat_norm_mem c.toNat hb.1 hb.2

/-- The central Bifid round-trip: on a square that is a permutation of the
25-letter alphabet, decoding the encoder's output recovers the normalized
message whenever all its normalized characters are in the square. -/
lemma bifid_roundtrip_aux (sq msg : List Char)
    (hsq : sq.Perm bifidAlphabet)
    (hmem : ∀ c ∈ bifidNormalize msg, c ∈ sq) :
    (bifid_encrypt sq msg).bind (bifid_decrypt sq) = some (bifidNormalize msg) := by
  have hnd : sq.Nodup := hsq.symm.nodup (by decide)
  have hlen : sq.length = 25 := by
    have h1 := hsq.length_eq
    have h2 : bifidAlphabet.length = 25 := by decide
    omega
  set nm := bifidNormalize msg with hnm
  set cod : Char → Nat × Nat := fun c => (gIdx sq c / 5, gIdx sq c % 5) with hcod
  -- the coordinate list of the message
  have hcoords : ∀ c ∈ nm, charToCoords sq c = some (cod c) := by
    intro c hc
    obtain ⟨h1, _, _⟩ := gIdx_spec sq c (hmem c hc)
    simp [charToCoords, h1, hcod]
  have hcs : bifidCoords sq msg = nm.map cod :=
    filterMap_eq_map_of_some _ _ _ hcoords
  have hgidx_lt : ∀ c ∈ nm, gIdx sq c < 25 := by
    intro c hc
    obtain ⟨_, h2, _⟩ := gIdx_spec sq c (hmem c hc)
    omega
  -- the combined list and its pairing
  have hcomb : bifidCombined sq msg = (nm.map cod).map Prod.fst ++ (nm.map cod).map Prod.snd := by
    rw [bifidCombined, hcs]
  have heven : (bifidCombined sq msg).length % 2 = 0 := by
    rw [hcomb]
    simp
    omega
  obtain ⟨ps, hps⟩ := pairUp_even _ heven
  obtain ⟨hflat, hpmem⟩ := pairUp_spec _ ps hps
  have hcomb_lt : ∀ x ∈ bifidCombined sq msg, x < 5 := by
    intro x hx
    rw [hcomb] at hx
    rcases List.mem_append.mp hx with hx | hx <;>
      · obtain ⟨p, hp, rfl⟩ := List.mem_map.mp hx
        obtain ⟨c, hc, rfl⟩ := List.mem_map.mp hp
        have := hgidx_lt c hc
        simp [hcod]
        omega
  have hpvalid : ∀ p ∈ ps, p.1 < 5 ∧ p.2 < 5 := by
    intro p hp
    obtain ⟨h1, h2⟩ := hpmem p hp
    exact ⟨hcomb_lt _ h1, hcomb_lt _ h2⟩
  -- the encoder's output characters
  have hctc : ∀ p ∈ ps, coordsToChar sq p.1 p.2 = some (cellChar sq p) := by
    intro p hp
    obtain ⟨h1, h2⟩ := hpvalid p hp
    have hidx : p.1 * 5 + p.2 < sq.length := by omega
    simp [coordsToChar, h1, h2, cellChar, List.getD_eq_getElem?_getD,
          List.getElem?_eq_getElem hidx]
  have henc : bifid_encrypt sq msg = some (ps.map (cellChar sq)) := by
    rw [bifid_encrypt, hps, Option.some_bind]
    exact mapOpt_eq_some _ _ _ hctc
  -- the ciphertext characters are square members fixed by normalization
  set ct : List Char := ps.map (cellChar sq) with hct
  have hctmem : ∀ c ∈ ct, c ∈ sq := by
    intro c hc
    obtain ⟨p, hp, rfl⟩ := List.mem_map.mp hc
    obtain ⟨h1, h2⟩ := hpvalid p hp
    have hidx : p.1 * 5 + p.2 < sq.length := by omega
    rw [cellChar, List.getD_eq_getElem?_getD, List.getElem?_eq_getElem hidx]
    exact List.getElem_mem hidx
  have hctnorm : bifidNormalize ct = ct := by
    rw [bifidNormalize]
    have hfix : ∀ c ∈ ct, normChar c = c ∧ c ≠ ' ' := fun c hc =>
      alpha_norm_fix c ((hsq.mem_iff).mp (hctmem c hc))
    rw [List.filter_eq_self.mpr (fun a ha => by simp [(hfix a ha).2])]
    rw [List.map_congr_left (fun a ha => (hfix a ha).1), List.map_id']
  -- decoding: the coordinates of the ciphertext are exactly the pairs
  have hdec_coords : bifidCoords sq ct = ps := by
    rw [bifidCoords, hctnorm, hct, List.filterMap_map]
    have : ∀ p ∈ ps, (charToCoords sq ∘ cellChar sq) p = some p := by
      rintro ⟨pa, pb⟩ hp
      obtain ⟨h1, h2⟩ := hpvalid _ hp
      simp only at h1 h2
      have hidx : pa * 5 + pb < sq.length := by omega
      have hcell : cellChar sq (pa, pb) = sq[pa * 5 + pb] := by
        rw [cellChar, List.getD_eq_getElem?_getD, List.getElem?_eq_getElem hidx]
        rfl
      have hio : indexOfChar sq[pa * 5 + pb] sq = some (pa * 5 + pb) :=
        indexOfChar_of_nodup sq _ _ hnd (List.getElem?_eq_getElem hidx)
      simp [Function.comp, hcell, charToCoords, hio]
      constructor <;> omega
    rw [filterMap_eq_map_of_some _ id _ this, List.map_id]
  have hdec_comb : bifidDecCombined sq ct = bifidCombined sq msg := by
    rw [bifidDecCombined, hdec_coords, hflat]
  -- splitting the combined list back into rows and columns
  have hlen_fst : ((nm.map cod).map Prod.fst).length = nm.length := by simp
  have hlen_snd : ((nm.map cod).map Prod.snd).length = nm.length := by simp
  have hmid : (bifidDecCombined sq ct).length / 2 = nm.length := by
    rw [hdec_comb, hcomb]
    simp
    omega
  have htake : (bifidDecCombined sq ct).take ((bifidDecCombined sq ct).length / 2)
      = (nm.map cod).map Prod.fst := by
    rw [hmid, hdec_comb, hcomb, List.take_left' hlen_fst]
  have hdrop : (bifidDecCombined sq ct).drop ((bifidDecCombined sq ct).length / 2)
      = (nm.map cod).map Prod.snd := by
    rw [hmid, hdec_comb, hcomb, List.drop_left' hlen_fst]
  have hzip : List.zip ((nm.map cod).map Prod.fst) ((nm.map cod).map Prod.snd)
      = nm.map cod := by
    rw [List.zip_map']
    exact List.map_id'' (fun p => rfl) _
  -- the final lookups recover the message
  have hfinal : ∀ p ∈ nm.map cod, coordsToChar sq p.1 p.2 = some (cellChar sq p) := by
    intro p hp
    obtain ⟨c, hc, rfl⟩ := List.mem_map.mp hp
    have hlt := hgidx_lt c hc
    have h1 : (cod c).1 < 5 := by simp [hcod]; omega
    have h2 : (cod c).2 < 5 := by simp [hcod]; omega
    have hidx : (cod c).1 * 5 + (cod c).2 < sq.length := by omega
    simp [coordsToChar, h1, h2, cellChar, List.getD_eq_getElem?_getD,
          List.getElem?_eq_getElem hidx]
  have hback : (nm.map cod).map (cellChar sq) = nm := by
    rw [List.map_map]
    have : ∀ c ∈ nm, (cellChar sq ∘ cod) c = c := by
      intro c hc
      obtain ⟨h1, hlt, h3⟩ := gIdx_spec sq c (hmem c hc)
      have hme : (cod c).1 * 5 + (cod c).2 = gIdx sq c := by
        simp [hcod]
        omega
      rw [Function.comp, cellChar, hme, List.getD_eq_getElem?_getD, h3]
      rfl
    rw [List.map_congr_left this, List.map_id']
  rw [henc, Option.some_bind, bifid_decrypt, htake, hdrop, hzip,
      mapOpt_eq_some _ _ _ hfinal, hback]



/-- The remaining hypothesis of `bifid_roundtrip_aux` follows from the message
being alphabetic and the square being valid. -/
lemma alpha_msg_mem (sq msg : List Char) (hperm : sq.Perm bifidAlphabet)
    (halpha : ∀ c ∈ msg, c.isAlpha = true) :
    ∀ c ∈ bifidNormalize msg, c ∈ sq := by
  intro c hc
  rw [bifidNormalize] at hc
  obtain ⟨c', hc', rfl⟩ := List.mem_map.mp hc
  have hm : c' ∈ msg := List.mem_of_mem_filter hc'
  exact hperm.mem_iff.mpr (normChar_mem_bifidAlphabet c' (halpha c' hm))

/-- C1: for every valid 5x5 Polybius square (25 unique letters, no 'j') and
every non-empty alphabetic message, running the Bifid decoder on the Bifid
encoder's output with the same square returns the normalized message
(lowercased, spaces stripped, 'j' replaced by 'i'). -/
theorem bifid_encrypt_decrypt_roundtrip (sq msg : List Char)
    (hsq : validSquareb sq = true)
    (halpha : ∀ c ∈ msg, c.isAlpha = true)
    (hne : msg ≠ []) :
    (bifid_encrypt sq msg).bind (bifid_decrypt sq) = some (bifidNormalize msg) := by
  have hperm := validSquareb_perm sq hsq
  exact bifid_roundtrip_aux sq msg hperm (alpha_msg_mem sq msg hperm halpha)

/-- Witness for C1 at the row-major square and message "help". -/
theorem bifid_encrypt_decrypt_roundtrip_witness :
    validSquareb bifidAlphabet = true ∧
    (∀ c ∈ "help".toList, c.isAlpha = true) ∧ "help".toList ≠ [] ∧
    (bifid_encrypt bifidAlphabet "help".toList).bind (bifid_decrypt bifidAlphabet)
      = some (bifidNormalize "help".toList) :=
  ⟨by decide, by decide, by decide,
    bifid_encrypt_decrypt_roundtrip bifidAlphabet "help".toList
      (by decide) (by decide) (by decide)⟩

/-- Counterexample to C4: "abc" has an odd number (3) of grid-mapped
characters, yet its final character is represented in the ciphertext: the
ciphertext differs from that of "ab", and decoding recovers the full "abc".
The encoder drops nothing. -/
theorem bifid_odd_drop_counterexample :
    gridMappedCount bifidAlphabet "abc".toList = 3 ∧
    bifid_encrypt bifidAlphabet "abc".toList ≠ bifid_encrypt bifidAlphabet "ab".toList ∧
    (bifid_encrypt bifidAlphabet "abc".toList).bind (bifid_decrypt bifidAlphabet)
      = some "abc".toList :=
  ⟨by decide, by decide, by decide⟩

/-- C4 amended: for every valid square and alphabetic message with an odd
count of grid-mapped characters, the encoder drops no character: the combined
row+column list always has even length `2 * count`, and decoding the ciphertext
recovers the full normalized message including the final character. -/
theorem bifid_odd_no_drop (sq msg : List Char)
    (hsq : validSquareb sq = true)
    (halpha : ∀ c ∈ msg, c.isAlpha = true)
    (hodd : gridMappedCount sq msg % 2 = 1) :
    (bifidCombined sq msg).length = 2 * gridMappedCount sq msg ∧
    (bifid_encrypt sq msg).bind (bifid_decrypt sq) = some (bifidNormalize msg) := by
  constructor
  · rw [bifidCombined, gridMappedCount]
    simp
    omega
  · have hperm := validSquareb_perm sq hsq
    exact bifid_roundtrip_aux sq msg hperm (alpha_msg_mem sq msg hperm halpha)

/-- Witness for the amended C4 at the row-major square and message "abc". -/
theorem bifid_odd_no_drop_witness :
    gridMappedCount bifidAlphabet "abc".toList % 2 = 1 ∧
    (bifidCombined bifidAlphabet "abc".toList).length
      = 2 * gridMappedCount bifidAlphabet "abc".toList ∧
    (bifid_encrypt bifidAlphabet "abc".toList).bind (bifid_decrypt bifidAlphabet)
      = some (bifidNormalize "abc".toList) := by
  refine ⟨by decide, ?_, ?_⟩
  · exact (bifid_odd_no_drop bifidAlphabet "abc".toList
      (by decide) (by decide) (by decide)).1
  · exact (bifid_odd_no_drop bifidAlphabet "abc".toList
      (by decide) (by decide) (by decide)).2



/-! ## Chaocipher (src/Ciphers/Chaocipher/ChaocipherCipher.py) -/

/-- `alphabet[index:] + alphabet[:index]`: rotate so position `index` moves to
the zenith (position 0). -/
def rotl (a : List Char) (index : Nat) : List Char := a.drop index ++ a.take index

/-- ChaocipherCipher.py lines 42-51 (`permute_left`): rotate the ciphertext
alphabet so the just-used index is at position 0, then
`alphabet[0] + alphabet[2:14] + extracted + alphabet[14:]` with
`extracted = alphabet[1]`.  Python slices are embedded with `take`/`drop`,
which agree with Python slicing on the 26-character alphabets guaranteed by
`validate_alphabet`. -/
def permute_left (alphabet : List Char) (index : Nat) : List Char :=
  let r := rotl alphabet index
  r.take 1 ++ (r.drop 2).take 12 ++ (r.drop 1).take 1 ++ r.drop 14

/-- ChaocipherCipher.py lines 54-66 (`permute_right`): rotate so the just-used
index is at position 0, rotate one further (`alphabet[1:] + alphabet[0]`), then
`alphabet[:2] + alphabet[3:14] + extracted + alphabet[14:]` with
`extracted = alphabet[2]`. -/
def permute_right (alphabet : List Char) (index : Nat) : List Char :=
  let r := rotl (rotl alphabet index) 1
  r.take 2 ++ (r.drop 3).take 11 ++ (r.drop 2).take 1 ++ r.drop 14

/-- One iteration of the loop in `chaocipher_encrypt` (lines 73-94): an
alphabetic character is located in the right alphabet (`.index`, `ValueError`
as `none`), substituted from the left alphabet at the same position
(case-preserving), and both alphabets are permuted; any other character passes
through with the state untouched. -/
def chaoStep (l r : List Char) (c : Char) : Option (Char × List Char × List Char) :=
  if c.toUpper.isAlpha then
    match indexOfChar c.toUpper r with
    | none => none
    | some index =>
      match l.get? index with
      | none => none
      | some cipherChar =>
        some (if c.isLower then cipherChar.toLower else cipherChar,
              permute_left l index, permute_right r index)
  else
    some (c, l, r)

/-- The encryption loop folded over the plaintext, accumulating the
ciphertext and threading both alphabets. -/
def chaoEncGo : List Char → List Char × List Char × List Char →
    Option (List Char × List Char × List Char)
  | [], st => some st
  | c :: cs, (ct, l, r) =>
    match chaoStep l r c with
    | none => none
    | some (out, l', r') => chaoEncGo cs (ct ++ [out], l', r')

/-- `chaocipher_encrypt(plaintext, left_alphabet, right_alphabet)`, returning
the ciphertext together with the final state of both alphabets. -/
def chaocipher_encrypt (pt l r : List Char) :
    Option (List Char × List Char × List Char) :=
  chaoEncGo pt ([], l, r)

/-- The standard upper-case alphabet, used as a concrete disk below. -/
def upperAlphabet : List Char := "ABCDEFGHIJKLMNOPQRSTUVWXYZ".toList

/-! ### Permutation lemmas -/

lemma perm_take_cons_drop (n : Nat) (l : List α) (a : α) :
    (l.take n ++ a :: l.drop n).Perm (a :: l) := by
  induction l generalizing n with
  | nil => simp
  | cons x xs ih =>
    rcases n with _ | m
    · simp
    · simp only [List.take_succ_cons, List.drop_succ_cons, List.cons_append]
      exact ((ih m).cons x).trans (List.Perm.swap a x xs)

lemma rotl_perm (a : List Char) (i : Nat) : (rotl a i).Perm a := by
  rw [rotl]
  exact List.perm_append_comm.trans (by rw [List.take_append_drop])

lemma rotl_length (a : List Char) (i : Nat) : (rotl a i).length = a.length := by
  rw [rotl]
  simp
  omega

lemma exists_two_cons (l : List Char) (h : 2 ≤ l.length) :
    ∃ c0 c1 t, l = c0 :: c1 :: t :=
  match l, h with
  | [], h => by simp at h
  | [c], h => by simp at h
  | c0 :: c1 :: t, _ => ⟨c0, c1, t, rfl⟩

lemma exists_three_cons (l : List Char) (h : 3 ≤ l.length) :
    ∃ c0 c1 c2 t, l = c0 :: c1 :: c2 :: t :=
  match l, h with
  | [], h => by simp at h
  | [c], h => by simp at h
  | [c, d], h => by simp at h
  | c0 :: c1 :: c2 :: t, _ => ⟨c0, c1, c2, t, rfl⟩

lemma permute_left_perm (a : List Char) (i : Nat) (h : a.length = 26) :
    (permute_left a i).Perm a := by
  rw [permute_left]
  have hr : (rotl a i).length = 26 := by rw [rotl_length, h]
  obtain ⟨c0, c1, t, hre⟩ := exists_two_cons (rotl a i) (by omega)
  rw [hre]
  have e1 : List.take 1 (c0 :: c1 :: t) = [c0] := rfl
  have e2 : List.take 12 (List.drop 2 (c0 :: c1 :: t)) = t.take 12 := rfl
  have e3 : List.take 1 (List.drop 1 (c0 :: c1 :: t)) = [c1] := rfl
  have e4 : List.drop 14 (c0 :: c1 :: t) = t.drop 12 := rfl
  rw [e1, e2, e3, e4]
  simp only [List.append_assoc, List.singleton_append, List.cons_append, List.nil_append]
  exact ((perm_take_cons_drop 12 t c1).cons c0).trans (hre ▸ rotl_perm a i)

lemma permute_right_perm (a : List Char) (i : Nat) (h : a.length = 26) :
    (permute_right a i).Perm a := by
  rw [permute_right]
  have hr : (rotl (rotl a i) 1).length = 26 := by rw [rotl_length, rotl_length, h]
  obtain ⟨c0, c1, c2, t, hre⟩ := exists_three_cons (rotl (rotl a i) 1) (by omega)
  rw [hre]
  have e1 : List.take 2 (c0 :: c1 :: c2 :: t) = [c0, c1] := rfl
  have e2 : List.take 11 (List.drop 3 (c0 :: c1 :: c2 :: t)) = t.take 11 := rfl
  have e3 : List.take 1 (List.drop 2 (c0 :: c1 :: c2 :: t)) = [c2] := rfl
  have e4 : List.drop 14 (c0 :: c1 :: c2 :: t) = t.drop 11 := rfl
  rw [e1, e2, e3, e4]
  simp only [List.append_assoc, List.singleton_append, List.cons_append, List.nil_append]
  have hperm : (rotl (rotl a i) 1).Perm a := (rotl_perm _ 1).trans (rotl_perm a i)
  exact (((perm_take_cons_drop 11 t c2).cons c1).cons c0).trans (hre ▸ hperm)

/-- C3: for 26-letter alphabets and any used index, `permute_left` and
`permute_right` preserve the multiset of symbols, and hence after every
single-character encode step both disk sequences remain exact permutations of
their previous (so of their initial) symbol sets. -/
theorem chaocipher_permutation_invariant :
    (∀ (a : List Char) (i : Nat), a.length = 26 → i < 26 →
      (permute_left a i).Perm a ∧ (permute_right a i).Perm a) ∧
    (∀ (l r : List Char) (c out : Char) (l2 r2 : List Char),
      l.length = 26 → r.length = 26 →
      chaoStep l r c = some (out, l2, r2) → l2.Perm l ∧ r2.Perm r) := by
  constructor
  · intro a i h _
    exact ⟨permute_left_perm a i h, permute_right_perm a i h⟩
  · intro l r c out l2 r2 hl hr hstep
    rw [chaoStep] at hstep
    by_cases hc : c.toUpper.isAlpha = true
    · rw [if_pos hc] at hstep
      cases hio : indexOfChar c.toUpper r with
      | none =>
        simp [hio] at hstep
      | some index =>
        simp only [hio] at hstep
        cases hlg : l.get? index with
        | none =>
          rw [hlg] at hstep
          simp at hstep
        | some cc =>
          rw [hlg] at hstep
          simp only [Option.some.injEq, Prod.mk.injEq] at hstep
          obtain ⟨-, h2, h3⟩ := hstep
          rw [← h2, ← h3]
          exact ⟨permute_left_perm l index hl, permute_right_perm r index hr⟩
    · rw [if_neg hc] at hstep
      simp only [Option.some.injEq, Prod.mk.injEq] at hstep
      obtain ⟨-, h2, h3⟩ := hstep
      rw [← h2, ← h3]
      exact ⟨List.Perm.refl l, List.Perm.refl r⟩

/-- Witness for C3: the standard alphabet at index 3, and one concrete
alphabetic encode step. -/
theorem chaocipher_permutation_invariant_witness :
    ((permute_left upperAlphabet 3).Perm upperAlphabet ∧
     (permute_right upperAlphabet 3).Perm upperAlphabet) ∧
    ((permute_left upperAlphabet 0).Perm upperAlphabet ∧
     (permute_right upperAlphabet 0).Perm upperAlphabet) :=
  ⟨chaocipher_permutation_invariant.1 upperAlphabet 3 (by decide) (by decide),
   chaocipher_permutation_invariant.2 upperAlphabet upperAlphabet 'a' 'a'
     (permute_left upperAlphabet 0) (permute_right upperAlphabet 0)
     (by decide) (by decide) (by decide)⟩

/-! ### The spec description of the permutation step (claim C5) -/

/-- Modelled from the spec (§4.4): "remove the symbol at position n". -/
def removeAt (n : Nat) (l : List Char) : List Char := l.take n ++ l.drop (n + 1)

/-- Modelled from the spec (§4.4): "reinsert it at position n". -/
def insertAt (n : Nat) (c : Char) (l : List Char) : List Char :=
  l.take n ++ c :: l.drop n

/-- Modelled from the spec: rotate the just-used index to position 0, then
remove the symbol at position 1 and reinsert it at position 13. -/
def spec_permute_left (a : List Char) (i : Nat) : List Char :=
  let r := rotl a i
  insertAt 13 (r.getD 1 ' ') (removeAt 1 r)

/-- Modelled from the spec: rotate the just-used index to position 0, rotate
one additional position left, then remove the symbol at position 2 and
reinsert it at position 13. -/
def spec_permute_right (a : List Char) (i : Nat) : List Char :=
  let r := rotl (rotl a i) 1
  insertAt 13 (r.getD 2 ' ') (removeAt 2 r)

/-- C5: on 26-symbol sequences the code permutations are exactly the spec's
rotate-remove-reinsert description, for both disks. -/
theorem chaocipher_permutation_matches_spec (a : List Char) (i : Nat)
    (h : a.length = 26) (hi : i < 26) :
    permute_left a i = spec_permute_left a i ∧
    permute_right a i = spec_permute_right a i := by
  constructor
  · rw [permute_left, spec_permute_left]
    have hr : (rotl a i).length = 26 := by rw [rotl_length, h]
    obtain ⟨c0, c1, t, hre⟩ := exists_two_cons (rotl a i) (by omega)
    rw [hre]
    have e1 : List.take 1 (c0 :: c1 :: t) = [c0] := rfl
    have e2 : List.take 12 (List.drop 2 (c0 :: c1 :: t)) = t.take 12 := rfl
    have e3 : List.take 1 (List.drop 1 (c0 :: c1 :: t)) = [c1] := rfl
    have e4 : List.drop 14 (c0 :: c1 :: t) = t.drop 12 := rfl
    rw [e1, e2, e3, e4]
    have e5 : removeAt 1 (c0 :: c1 :: t) = c0 :: t := rfl
    have e6 : (c0 :: c1 :: t).getD 1 ' ' = c1 := rfl
    have e7 : insertAt 13 c1 (c0 :: t) = c0 :: (t.take 12 ++ c1 :: t.drop 12) := rfl
    rw [e5, e6, e7]
    simp [List.append_assoc]
  · rw [permute_right, spec_permute_right]
    have hr : (rotl (rotl a i) 1).length = 26 := by rw [rotl_length, rotl_length, h]
    obtain ⟨c0, c1, c2, t, hre⟩ := exists_three_cons (rotl (rotl a i) 1) (by omega)
    rw [hre]
    have e1 : List.take 2 (c0 :: c1 :: c2 :: t) = [c0, c1] := rfl
    have e2 : List.take 11 (List.drop 3 (c0 :: c1 :: c2 :: t)) = t.take 11 := rfl
    have e3 : List.take 1 (List.drop 2 (c0 :: c1 :: c2 :: t)) = [c2] := rfl
    have e4 : List.drop 14 (c0 :: c1 :: c2 :: t) = t.drop 11 := rfl
    rw [e1, e2, e3, e4]
    have e5 : removeAt 2 (c0 :: c1 :: c2 :: t) = c0 :: c1 :: t := rfl
    have e6 : (c0 :: c1 :: c2 :: t).getD 2 ' ' = c2 := rfl
    have e7 : insertAt 13 c2 (c0 :: c1 :: t) = c0 :: c1 :: (t.take 11 ++ c2 :: t.drop 11) := rfl
    rw [e5, e6, e7]
    simp [List.append_assoc]

/-- Witness for C5 at the standard alphabet and index 7. -/
theorem chaocipher_permutation_matches_spec_witness :
    permute_left upperAlphabet 7 = spec_permute_left upperAlphabet 7 ∧
    permute_right upperAlphabet 7 = spec_permute_right upperAlphabet 7 :=
  chaocipher_permutation_matches_spec upperAlphabet 7 (by decide) (by decide)

/-- C7: a non-alphabetic character is appended to the ciphertext unchanged and
neither alphabet is mutated: the step leaves the disk state identical, and the
encryption loop continues from the same state. -/
theorem chaocipher_nonalpha_passthrough (l r : List Char) (c : Char)
    (cs ct : List Char) (hc : c.toUpper.isAlpha = false) :
    chaoStep l r c = some (c, l, r) ∧
    chaoEncGo (c :: cs) (ct, l, r) = chaoEncGo cs (ct ++ [c], l, r) := by
  have hstep : chaoStep l r c = some (c, l, r) := by
    rw [chaoStep, if_neg (by simp [hc])]
  refine ⟨hstep, ?_⟩
  rw [chaoEncGo, hstep]

/-- Witness for C7 at the '!' character. -/
theorem chaocipher_nonalpha_passthrough_witness :
    chaoStep upperAlphabet upperAlphabet '!' = some ('!', upperAlphabet, upperAlphabet) ∧
    chaoEncGo ['!'] ([], upperAlphabet, upperAlphabet)
      = chaoEncGo [] (['!'], upperAlphabet, upperAlphabet) :=
  chaocipher_nonalpha_passthrough upperAlphabet upperAlphabet '!' [] [] (by decide)



/-! ## ADFGVX cipher (src/CipherScripts/ADFGVXcipher.py and
src/Ciphers/ADFGVX/ADFGVXdecipher.py) -/

/-- `secret_message.replace(" ", "").lower()` (no i/j merge here). -/
def adfgvxNormalize (msg : List Char) : List Char :=
  (msg.filter (fun c => c ≠ ' ')).map Char.toLower

/-- The row/column labels of the big (6x6) square. -/
def adfgvxLabels : List Char := ['A', 'D', 'F', 'G', 'V', 'X']

/-- `find_polybius_char(matrix, character, size)`: scan the square row-major,
returning the first cell whose string contains the character (Python `in` on
the cell string, so the "i/j" cell matches both 'i' and 'j'); `None` when no
cell matches. -/
def find_polybius_char (matrix : List (List (List Char))) (c : Char)
    (size : Nat) : Option (Nat × Nat) :=
  (List.range size).findSome? (fun p =>
    (List.range size).findSome? (fun k =>
      if c ∈ (matrix.getD p []).getD k [] then some (p, k) else none))

/-- ADFGVXcipher.py lines 56-63: walk the normalized message, appending the
row label and then the column label of each character to consecutive buckets,
advancing the bucket index round-robin (`row = (row + 1) % len(key)`) after
each label.  A character found in no cell makes `p,k = find_polybius_char(...)`
unpack `None` and abort, embedded as `none`.  Bucket writes are in range
because the index is always reduced mod the bucket count. -/
def adfgvxStage1Go (matrix : List (List (List Char))) (labels : List Char)
    (size k : Nat) :
    List Char → Nat → List (List Char) → Option (List (List Char))
  | [], _, buckets => some buckets
  | c :: cs, row, buckets =>
    match find_polybius_char matrix c size with
    | none => none
    | some pk =>
      let b1 := buckets.set row ((buckets.getD row []) ++ [labels.getD pk.1 ' '])
      let row1 := (row + 1) % k
      let b2 := b1.set row1 ((b1.getD row1 []) ++ [labels.getD pk.2 ' '])
      adfgvxStage1Go matrix labels size k cs ((row1 + 1) % k) b2

/-- `ciphered_stage1_matrix` as a function of message and key. -/
def adfgvxStage1 (matrix : List (List (List Char))) (labels : List Char)
    (size : Nat) (msg key : List Char) : Option (List (List Char)) :=
  adfgvxStage1Go matrix labels size key.length (adfgvxNormalize msg) 0
    (List.replicate key.length [])

/-- Lines 69-74 of both scripts: build `index_dict` mapping each key character
to its position, aborting with the duplicate-character error
(`sys.exit`, embedded as `none`) when a character repeats. -/
def buildIndexDictGo : List Char → Nat → List (Char × Nat) →
    Option (List (Char × Nat))
  | [], _, acc => some acc
  | c :: cs, i, acc =>
    if (acc.map Prod.fst).contains c then none
    else buildIndexDictGo cs (i + 1) (acc ++ [(c, i)])

def adfgvx_index_dict (key : List Char) : Option (List (Char × Nat)) :=
  buildIndexDictGo key 0 []

/-- `sorted(index_dict.items())` by insertion sort on the key character; the
characters are unique whenever this is reached, so tie order is irrelevant. -/
def insertSorted (p : Char × Nat) : List (Char × Nat) → List (Char × Nat)
  | [] => [p]
  | q :: qs => if p.1 ≤ q.1 then p :: q :: qs else q :: insertSorted p qs

def sortPairs : List (Char × Nat) → List (Char × Nat)
  | [] => []
  | p :: ps => insertSorted p (sortPairs ps)

/-- The stage-1 bucket distribution applied to an already-flattened label
stream: one symbol per step, bucket index advancing round-robin — the
flattened form of `adfgvxStage1Go`, matching the spec's
`transpose(stream, K)` view of lines 56-63. -/
def roundRobinGo (k : Nat) : List Char → Nat → List (List Char) → List (List Char)
  | [], _, buckets => buckets
  | c :: cs, row, buckets =>
    roundRobinGo k cs ((row + 1) % k)
      (buckets.set row ((buckets.getD row []) ++ [c]))

def roundRobin (stream : List Char) (k : Nat) : List (List Char) :=
  roundRobinGo k stream 0 (List.replicate k [])

/-- Lines 69-86 on a flat stream: duplicate-key check, then emit the buckets
in sorted-key order (`transposition_matrix[row] = ciphered_stage1_matrix[new_index]`). -/
def adfgvx_transpose (stream key : List Char) : Option (List (List Char)) :=
  (adfgvx_index_dict key).map (fun dict =>
    (sortPairs dict).map (fun p => (roundRobin stream key.length).getD p.2 []))

/-- The full encoder (lines 56-86): stage 1 from the message, duplicate-key
check, then sorted emission of the buckets. -/
def adfgvx_encrypt (matrix : List (List (List Char))) (labels : List Char)
    (size : Nat) (msg key : List Char) : Option (List (List Char)) :=
  match adfgvxStage1 matrix labels size msg key with
  | none => none
  | some buckets =>
    (adfgvx_index_dict key).map (fun dict =>
      (sortPairs dict).map (fun p => buckets.getD p.2 []))

/-- ADFGVXdecipher.py lines 83-88: reassign each received column to its
original bucket position, walking the sorted dict with a running column index
(`columns[col_idx]` raising `IndexError` is `none`). -/
def assignGo (columns : List (List Char)) :
    List (Char × Nat) → Nat → List (List Char) → Option (List (List Char))
  | [], _, orig => some orig
  | p :: ps, colIdx, orig =>
    match columns.get? colIdx with
    | none => none
    | some col => assignGo columns ps (colIdx + 1) (orig.set p.2 col)

/-- Lines 90-95: read the reconstructed grid row-major with `i` and `j` both
ranging over `range(len(original_columns))` — the key length, not the maximal
column length — taking `original_columns[j][i]` only when
`i < len(original_columns[j])`. -/
def readRows (orig : List (List Char)) (k : Nat) : List Char :=
  (List.range k).flatMap (fun i =>
    (List.range k).filterMap (fun j => ((orig.getD j []).get? i)))

/-- The decoder's reconstructed `intermediate` label stream (lines 69-95). -/
def adfgvx_intermediate (columns : List (List Char)) (key : List Char) :
    Option (List Char) :=
  match adfgvx_index_dict key with
  | none => none
  | some dict =>
    match assignGo columns (sortPairs dict) 0 (List.replicate key.length []) with
    | none => none
    | some orig => some (readRows orig key.length)

/-- Lines 97-106: consume the intermediate stream two characters at a time
(`intermediate[i+1]` reads past the end on an odd tail: `IndexError`), map the
two labels back through `polybius_label.index` (`ValueError` when absent) and
append the matrix cell string. -/
def decodePairs (labels : List Char) (matrix : List (List (List Char))) :
    List Char → Option (List Char)
  | [] => some []
  | [_] => none
  | a :: b :: rest =>
    match indexOfChar a labels with
    | none => none
    | some row =>
      match indexOfChar b labels with
      | none => none
      | some col =>
        match matrix.get? row with
        | none => none
        | some mrow =>
          match mrow.get? col with
          | none => none
          | some cell =>
            (decodePairs labels matrix rest).map (fun cs => cell ++ cs)

/-- The full decoder pipeline (lines 69-106). -/
def adfgvx_decrypt (columns : List (List Char)) (key labels : List Char)
    (matrix : List (List (List Char))) : Option (List Char) :=
  (adfgvx_intermediate columns key).bind (decodePairs labels matrix)



/-! ### ADFGVX claim proofs -/

/-- C2 (evaluation at the failing input): with the duplicate-free key "ab"
and the flat 5-symbol stream "ADFGX", inverting the code's transposition
returns only "ADFG" — the reading loop iterates row indices
`0..len(key)-1` instead of `0..max-column-length`, silently dropping the
symbols of rows beyond the key length. -/
theorem adfgvx_invert_transpose_drops_symbols :
    (adfgvx_transpose "ADFGX".toList "ab".toList).bind
        (fun cols => adfgvx_intermediate cols "ab".toList)
      = some "ADFG".toList ∧
    "ADFG".toList ≠ "ADFGX".toList :=
  ⟨by decide, by decide⟩

lemma buildIndexDictGo_none (key : List Char) :
    ∀ (i : Nat) (acc : List (Char × Nat)),
      (¬ key.Nodup ∨ ∃ c ∈ key, c ∈ acc.map Prod.fst) →
      buildIndexDictGo key i acc = none := by
  induction key with
  | nil =>
    intro i acc h
    rcases h with h | ⟨c, hc, _⟩
    · exact absurd List.nodup_nil h
    · simp at hc
  | cons c cs ih =>
    intro i acc h
    rw [buildIndexDictGo]
    by_cases hm : (acc.map Prod.fst).contains c = true
    · rw [if_pos hm]
    · rw [if_neg hm]
      apply ih
      have hnm : c ∉ acc.map Prod.fst := by
        intro hcm
        exact hm (by simpa using hcm)
      rcases h with h | ⟨d, hd, hacc⟩
      · by_cases hcc : c ∈ cs
        · exact Or.inr ⟨c, hcc, by simp⟩
        · left
          intro hnd
          exact h (List.nodup_cons.mpr ⟨hcc, hnd⟩)
      · rcases List.mem_cons.mp hd with rfl | hdc
        · exact absurd hacc hnm
        · exact Or.inr ⟨d, hdc, by simp [hacc]⟩

/-- C8: a transposition key with a duplicate character makes both the encoder
and the decoder abort at the `index_dict` construction: no transposition
output and no reconstructed stream is produced. -/
theorem adfgvx_duplicate_key_rejected (matrix : List (List (List Char)))
    (labels : List Char) (size : Nat) (msg stream key : List Char)
    (columns : List (List Char)) (hdup : ¬ key.Nodup) :
    adfgvx_index_dict key = none ∧
    adfgvx_transpose stream key = none ∧
    adfgvx_encrypt matrix labels size msg key = none ∧
    adfgvx_intermediate columns key = none ∧
    adfgvx_decrypt columns key labels matrix = none := by
  have h : adfgvx_index_dict key = none :=
    buildIndexDictGo_none key 0 [] (Or.inl hdup)
  refine ⟨h, ?_, ?_, ?_, ?_⟩
  · rw [adfgvx_transpose, h]
    rfl
  · rw [adfgvx_encrypt]
    cases hs : adfgvxStage1 matrix labels size msg key with
    | none => rfl
    | some buckets => rw [h]; rfl
  · rw [adfgvx_intermediate, h]
  · rw [adfgvx_decrypt, adfgvx_intermediate, h]
    rfl

/-- Witness for C8 at the key "hello" of the spec's test scenario. -/
theorem adfgvx_duplicate_key_rejected_witness :
    adfgvx_index_dict "hello".toList = none ∧
    adfgvx_transpose "ADFGX".toList "hello".toList = none :=
  ⟨(adfgvx_duplicate_key_rejected [] adfgvxLabels 6 [] "ADFGX".toList
      "hello".toList [] (by decide)).1,
   (adfgvx_duplicate_key_rejected [] adfgvxLabels 6 [] "ADFGX".toList
      "hello".toList [] (by decide)).2.1⟩



lemma adfgvxStage1Go_none (matrix : List (List (List Char)))
    (labels : List Char) (size k : Nat) :
    ∀ (cs : List Char) (row : Nat) (buckets : List (List Char)) (c : Char),
      c ∈ cs → find_polybius_char matrix c size = none →
      adfgvxStage1Go matrix labels size k cs row buckets = none := by
  intro cs
  induction cs with
  | nil => simp
  | cons d ds ih =>
    intro row buckets c hc hnone
    rw [adfgvxStage1Go]
    rcases List.mem_cons.mp hc with rfl | hmem
    · rw [hnone]
    · cases hf : find_polybius_char matrix d size with
      | none => rfl
      | some pk =>
        simp only
        exact ih _ _ c hmem hnone

/-- C9 (implicit): the ADFGVX encoder is not total — a normalized message
character found in no cell of the square makes `find_polybius_char` return
`None`, the tuple unpacking aborts, and no ciphertext is produced. -/
theorem adfgvx_unmapped_char_aborts (matrix : List (List (List Char)))
    (labels : List Char) (size : Nat) (msg key : List Char) (c : Char)
    (hc : c ∈ adfgvxNormalize msg)
    (hnone : find_polybius_char matrix c size = none) :
    adfgvxStage1 matrix labels size msg key = none ∧
    adfgvx_encrypt matrix labels size msg key = none := by
  have h1 : adfgvxStage1 matrix labels size msg key = none :=
    adfgvxStage1Go_none matrix labels size key.length _ 0 _ c hc hnone
  refine ⟨h1, ?_⟩
  rw [adfgvx_encrypt, h1]

/-- Witness for C9: the letter 'x' appears in no cell of a 2x2 square. -/
theorem adfgvx_unmapped_char_aborts_witness :
    'x' ∈ adfgvxNormalize "ax".toList ∧
    find_polybius_char [[['a'], ['b']], [['c'], ['d']]] 'x' 2 = none ∧
    adfgvx_encrypt [[['a'], ['b']], [['c'], ['d']]] adfgvxLabels 2
      "ax".toList "ab".toList = none :=
  ⟨by decide, by decide,
   (adfgvx_unmapped_char_aborts [[['a'], ['b']], [['c'], ['d']]] adfgvxLabels 2
      "ax".toList "ab".toList 'x' (by decide) (by decide)).2⟩

lemma decodePairs_odd (labels : List Char) (matrix : List (List (List Char))) :
    ∀ (inter : List Char), inter.length % 2 = 1 →
      decodePairs labels matrix inter = none
  | [], h => by simp at h
  | [a], _ => rfl
  | a :: b :: rest, h => by
    have hr : rest.length % 2 = 1 := by
      simp only [List.length_cons] at h
      omega
    rw [decodePairs]
    cases h1 : indexOfChar a labels with
    | none => rfl
    | some row =>
      simp only
      cases h2 : indexOfChar b labels with
      | none => rfl
      | some col =>
        simp only
        cases m1 : matrix.get? row with
        | none => rfl
        | some mrow =>
          simp only
          cases m2 : mrow.get? col with
          | none => rfl
          | some cell =>
            simp only
            rw [decodePairs_odd labels matrix rest hr]
            rfl

/-- C10 (implicit): the ADFGVX decoder is not total — whenever the
reconstructed intermediate stream has odd length, the pairing loop reads past
the end of the string and aborts; no partial decryption is returned. -/
theorem adfgvx_odd_intermediate_aborts (columns : List (List Char))
    (key labels : List Char) (matrix : List (List (List Char)))
    (inter : List Char)
    (hint : adfgvx_intermediate columns key = some inter)
    (hodd : inter.length % 2 = 1) :
    adfgvx_decrypt columns key labels matrix = none := by
  rw [adfgvx_decrypt, hint, Option.some_bind]
  exact decodePairs_odd labels matrix inter hodd

/-- Witness for C10: columns of sizes 1 and 2 under key "ab" rebuild the
odd-length stream "ADF". -/
theorem adfgvx_odd_intermediate_aborts_witness :
    adfgvx_intermediate [['A'], ['D', 'F']] "ab".toList = some "ADF".toList ∧
    "ADF".toList.length % 2 = 1 ∧
    adfgvx_decrypt [['A'], ['D', 'F']] "ab".toList adfgvxLabels
      [[['a'], ['b']], [['c'], ['d']]] = none :=
  ⟨by decide, by decide,
   adfgvx_odd_intermediate_aborts [['A'], ['D', 'F']] "ab".toList adfgvxLabels
     [[['a'], ['b']], [['c'], ['d']]] "ADF".toList (by decide) (by decide)⟩



/-- Counterexample to C6: the Bifid decoder does not fail on a symbol with no
mapping in the square — decoding "a?b" succeeds and returns exactly the result
of decoding "ab", silently skipping the '?'. -/
theorem bifid_decoder_skips_counterexample :
    (bifid_decrypt bifidAlphabet "a?b".toList).isSome = true ∧
    bifid_decrypt bifidAlphabet "a?b".toList
      = bifid_decrypt bifidAlphabet "ab".toList :=
  ⟨by decide, by decide⟩

lemma decodePairs_bad (labels : List Char) (matrix : List (List (List Char))) :
    ∀ (inter : List Char), inter.length % 2 = 0 →
      (∃ d ∈ inter, indexOfChar d labels = none) →
      decodePairs labels matrix inter = none
  | [], _, h => by
    obtain ⟨d, hd, _⟩ := h
    simp at hd
  | [a], h, _ => by simp at h
  | a :: b :: rest, h, hbad => by
    have hr : rest.length % 2 = 0 := by
      simp only [List.length_cons] at h
      omega
    obtain ⟨d, hd, hnone⟩ := hbad
    rw [decodePairs]
    cases h1 : indexOfChar a labels with
    | none => rfl
    | some row =>
      simp only
      cases h2 : indexOfChar b labels with
      | none => rfl
      | some col =>
        simp only
        have hdrest : d ∈ rest := by
          rcases List.mem_cons.mp hd with rfl | hd'
          · rw [h1] at hnone
            exact absurd hnone (by simp)
          · rcases List.mem_cons.mp hd' with rfl | hd''
            · rw [h2] at hnone
              exact absurd hnone (by simp)
            · exact hd''
        cases m1 : matrix.get? row with
        | none => rfl
        | some mrow =>
          simp only
          cases m2 : mrow.get? col with
          | none => rfl
          | some cell =>
            simp only
            rw [decodePairs_bad labels matrix rest hr ⟨d, hdrest, hnone⟩]
            rfl

/-- C6 amended: the two decoders disagree on unmapped symbols.  The ADFGVX
decoder fails on a label with no row/column index (`polybius_label.index`
raises), while the Bifid decoder silently skips a ciphertext character with no
mapping in the square and decodes the rest. -/
theorem fractionation_unknown_symbol_behavior
    (sq pre post : List Char) (c : Char)
    (hcmem : normChar c ∉ sq) (hcsp : c ≠ ' ')
    (labels : List Char) (matrix : List (List (List Char))) (inter : List Char)
    (heven : inter.length % 2 = 0)
    (hbad : ∃ d ∈ inter, indexOfChar d labels = none) :
    bifid_decrypt sq (pre ++ c :: post) = bifid_decrypt sq (pre ++ post) ∧
    decodePairs labels matrix inter = none := by
  constructor
  · have hnone : charToCoords sq (normChar c) = none := by
      rw [charToCoords, indexOfChar_eq_none _ _ hcmem]
      rfl
    have hcoords_eq : bifidCoords sq (pre ++ c :: post) = bifidCoords sq (pre ++ post) := by
      rw [bifidCoords, bifidCoords, bifidNormalize, bifidNormalize]
      simp [List.filter_append, List.map_append, List.filterMap_append, hcsp, hnone]
    rw [bifid_decrypt, bifid_decrypt, bifidDecCombined, bifidDecCombined, hcoords_eq]
  · exact decodePairs_bad labels matrix inter heven hbad

/-- Witness for the amended C6: '?' in Bifid ciphertext, 'Z' among ADFGVX
labels. -/
theorem fractionation_unknown_symbol_behavior_witness :
    bifid_decrypt bifidAlphabet ("a".toList ++ '?' :: "b".toList)
      = bifid_decrypt bifidAlphabet ("a".toList ++ "b".toList) ∧
    decodePairs adfgvxLabels [[['a'], ['b']], [['c'], ['d']]] "ZA".toList = none :=
  fractionation_unknown_symbol_behavior bifidAlphabet "a".toList "b".toList '?'
    (by decide) (by decide) adfgvxLabels [[['a'], ['b']], [['c'], ['d']]]
    "ZA".toList (by decide) ⟨'Z', by decide, by decide⟩


end ARGT
